import Mathlib

/-!
Verification of the nkdbfi interpreter (src/main.rs).

The development shallowly embeds the interpreter: the token type and the
tokenizer loop of `Program::from_source`, the bracket-balance pre-check of
`main`, and the execution engine (`Program::exec` with the eight handlers
`incp`, `decp`, `incc`, `decc`, `pchr`, `gchr`, `lbrk`, `rbrk`).  The
`HashMap<isize, u8>` data tape is modelled as a function `Int → Option Nat`
(`none` = key absent; indexing an absent key panics in Rust, which the
embedding models by the step function returning `none`).  `usize`
subtraction that would underflow (a debug-build panic) is likewise
modelled by `none` results.  Machine bytes are `Nat` with explicit
`% 256`.
-/

set_option maxHeartbeats 1000000

namespace Nkdbfi

/-- The instruction type, mirroring `enum Token` in the source. -/
inductive Token where
  | INCP
  | DECP
  | INCC
  | DECC
  | PCHR
  | GCHR
  | LBRK
  | RBRK
deriving DecidableEq

/-- Bracket weight of a token: `LBRK` opens (+1), `RBRK` closes (-1). -/
def tokDelta : Token → Int
  | Token.LBRK => 1
  | Token.RBRK => -1
  | _ => 0

/-- Net bracket balance of an instruction list. -/
def bal (ts : List Token) : Int :=
  (ts.map tokDelta).sum

/-- The segment of positions `a ≤ k < b` of an instruction list. -/
def seg (ts : List Token) (a b : Nat) : List Token :=
  (ts.drop a).take (b - a)

/-- Every initial piece of the list has nonnegative bracket balance. -/
def NonNegL (ts : List Token) : Prop :=
  ∀ k, k ≤ ts.length → 0 ≤ bal (ts.take k)

/-- A well-nested bracket string: balance zero overall and nonnegative throughout. -/
def BalancedL (ts : List Token) : Prop :=
  bal ts = 0 ∧ NonNegL ts

/-- Declarative depth-aware bracket matching: the `LBRK` at `i` matches the
`RBRK` at `j` when the tokens strictly between them form a well-nested string. -/
def IsMatch (ts : List Token) (i j : Nat) : Prop :=
  ts[i]? = some Token.LBRK ∧ ts[j]? = some Token.RBRK ∧ i < j ∧
    BalancedL (seg ts (i + 1) j)

instance (ts : List Token) : Decidable (NonNegL ts) := by
  unfold NonNegL
  infer_instance

instance (ts : List Token) : Decidable (BalancedL ts) := by
  unfold BalancedL
  infer_instance

instance (ts : List Token) (i j : Nat) : Decidable (IsMatch ts i j) := by
  unfold IsMatch
  infer_instance

/-- The counter update of the forward scan in `Program::lbrk`:
`LBRK => count += 1`, `RBRK => count -= 1`, anything else unchanged. -/
def cntF (t : Token) (count : Nat) : Nat :=
  match t with
  | Token.LBRK => count + 1
  | Token.RBRK => count - 1
  | _ => count

/-- The counter update of the backward scan in `Program::rbrk`:
`RBRK => count += 1`, `LBRK => count -= 1`, anything else unchanged. -/
def cntB (t : Token) (count : Nat) : Nat :=
  match t with
  | Token.RBRK => count + 1
  | Token.LBRK => count - 1
  | _ => count

/-- The forward scan of `Program::lbrk`: walk the instructions after the
`LBRK`, updating the nesting counter with `cntF`, and return how many
instructions were examined when the counter reaches 0 (`none` models the
out-of-bounds fetch panic when the scan runs off the end). -/
def scanK : List Token → Nat → Option Nat
  | [], _ => none
  | t :: rest, count =>
    if cntF t count = 0 then some 1
    else
      match scanK rest (cntF t count) with
      | none => none
      | some k => some (k + 1)

/-- The backward scan of `Program::rbrk`: examine positions `pos, pos-1, …`,
updating the nesting counter with `cntB`, and return the position at
which the counter reaches 0.  `none` models the `usize` underflow panic of
`self.ip -= 1` when the scan would move past position 0 without matching. -/
def scanBack (ts : List Token) : Nat → Nat → Option Nat
  | 0, count =>
    match ts[0]? with
    | none => none
    | some t => if cntB t count = 0 then some 0 else none
  | pos + 1, count =>
    match ts[pos + 1]? with
    | none => none
    | some t =>
      if cntB t count = 0 then some (pos + 1) else scanBack ts pos (cntB t count)

/-- The character table of the tokenizer, as a partial map (specification
side of claim C5): the eight recognized characters and nothing else. -/
def charToToken (c : Char) : Option Token :=
  if c = '>' then some Token.INCP
  else if c = '<' then some Token.DECP
  else if c = '+' then some Token.INCC
  else if c = '-' then some Token.DECC
  else if c = '.' then some Token.PCHR
  else if c = ',' then some Token.GCHR
  else if c = '[' then some Token.LBRK
  else if c = ']' then some Token.RBRK
  else none

/-- The tokenizer loop of `Program::from_source`: push the instruction for
each recognized character, silently skip every other character. -/
def tokenize : List Char → List Token
  | [] => []
  | c :: cs =>
    if c = '>' then Token.INCP :: tokenize cs
    else if c = '<' then Token.DECP :: tokenize cs
    else if c = '+' then Token.INCC :: tokenize cs
    else if c = '-' then Token.DECC :: tokenize cs
    else if c = '.' then Token.PCHR :: tokenize cs
    else if c = ',' then Token.GCHR :: tokenize cs
    else if c = '[' then Token.LBRK :: tokenize cs
    else if c = ']' then Token.RBRK :: tokenize cs
    else tokenize cs

/-- The eight instruction characters. -/
def instrChars : List Char := ['>', '<', '+', '-', '.', ',', '[', ']']

/-- The global bracket-balance pre-check of `main`: a signed counter
(`i128` in the source, `Int` here) incremented on each `[`, decremented on
each `]`, failing as soon as it goes negative, and required to be zero at
the end. -/
def bracketCheck : List Char → Int → Bool
  | [], count => decide (count = 0)
  | c :: cs, count =>
    if c = '[' then bracketCheck cs (count + 1)
    else if c = ']' then
      if count - 1 < 0 then false
      else bracketCheck cs (count - 1)
    else bracketCheck cs count

/-- Signed bracket weight of one character: `[` = +1, `]` = -1, else 0. -/
def charDelta (c : Char) : Int :=
  if c = '[' then 1 else if c = ']' then -1 else 0

/-- Signed bracket balance of a character list (`[` = +1, `]` = -1),
the specification-side counter of claim C7. -/
def charBal : List Char → Int
  | [] => 0
  | c :: cs => charDelta c + charBal cs

/-- The mutable interpreter state of `struct Program`: data pointer,
instruction pointer, data tape, remaining input bytes, and the bytes
written so far.  The instruction list (`itape`) is immutable and passed
separately. -/
structure State where
  dp : Int
  ip : Nat
  dtape : Int → Option Nat
  input : List Nat
  output : List Nat

/-- `HashMap::insert`: update one key of the tape. -/
def tapeInsert (m : Int → Option Nat) (k : Int) (v : Nat) : Int → Option Nat :=
  fun a => if a = k then some v else m a

/-- `HashMap::new()`: the empty tape. -/
def emptyTape : Int → Option Nat := fun _ => none

/-- The state built by `Program::from_source`: `dp = 0`, `ip = 0`, and the
tape pre-seeded with address 0 ↦ 0. -/
def initState (input : List Nat) : State :=
  { dp := 0, ip := 0, dtape := tapeInsert emptyTape 0 0,
    input := input, output := [] }

/-- `Program::incp`: move the data pointer right, zero-filling the new
address if it has no entry, and advance `ip`. -/
def incp (s : State) : State :=
  { s with
      dp := s.dp + 1,
      dtape :=
        if (s.dtape (s.dp + 1)).isSome then s.dtape
        else tapeInsert s.dtape (s.dp + 1) 0,
      ip := s.ip + 1 }

/-- `Program::decp`: move the data pointer left, zero-filling the new
address if it has no entry, and advance `ip`. -/
def decp (s : State) : State :=
  { s with
      dp := s.dp - 1,
      dtape :=
        if (s.dtape (s.dp - 1)).isSome then s.dtape
        else tapeInsert s.dtape (s.dp - 1) 0,
      ip := s.ip + 1 }

/-- `Program::incc`: increment the current cell with 8-bit wraparound
(`u8::wrapping_add(1)`), and advance `ip`.  Indexing an absent tape key
panics in Rust, modelled by `none`. -/
def incc (s : State) : Option State :=
  match s.dtape s.dp with
  | none => none
  | some v =>
    some { s with dtape := tapeInsert s.dtape s.dp ((v + 1) % 256), ip := s.ip + 1 }

/-- `Program::decc`: decrement the current cell with 8-bit wraparound
(`u8::wrapping_sub(1)`, i.e. `(v + 255) % 256` for a byte `v`), and advance `ip`. -/
def decc (s : State) : Option State :=
  match s.dtape s.dp with
  | none => none
  | some v =>
    some { s with dtape := tapeInsert s.dtape s.dp ((v + 255) % 256), ip := s.ip + 1 }

/-- `Program::pchr`: write the current cell to the output and advance `ip`. -/
def pchr (s : State) : Option State :=
  match s.dtape s.dp with
  | none => none
  | some v =>
    some { s with output := s.output ++ [v], ip := s.ip + 1 }

/-- `Program::gchr`: read one byte from the input (0 when the stream is
exhausted, per `unwrap_or(Ok(0))`), store it at the current cell, advance `ip`. -/
def gchr (s : State) : State :=
  match s.input with
  | [] => { s with dtape := tapeInsert s.dtape s.dp 0, ip := s.ip + 1 }
  | b :: rest =>
    { s with dtape := tapeInsert s.dtape s.dp b, input := rest, ip := s.ip + 1 }

/-- `Program::lbrk`: advance `ip` past the `LBRK` first; if the current
cell is nonzero fall through, otherwise scan forward with the nesting
counter and land one past the matching `RBRK`. -/
def lbrk (itape : List Token) (s : State) : Option State :=
  match s.dtape s.dp with
  | none => none
  | some v =>
    if v ≠ 0 then some { s with ip := s.ip + 1 }
    else
      match scanK (itape.drop (s.ip + 1)) 1 with
      | none => none
      | some k => some { s with ip := s.ip + 1 + k }

/-- `Program::rbrk`: if the current cell is zero fall through; otherwise
scan backward from the instruction before the `RBRK` with the nesting
counter and land one past the matching `LBRK`.  The two `none` guards model
the `usize` underflow panics of `self.ip -= 1` at position 0. -/
def rbrk (itape : List Token) (s : State) : Option State :=
  match s.dtape s.dp with
  | none => none
  | some v =>
    if v = 0 then some { s with ip := s.ip + 1 }
    else if s.ip = 0 then none
    else
      match scanBack itape (s.ip - 1) 1 with
      | none => none
      | some m => if m = 0 then none else some { s with ip := m + 1 }

/-- One iteration of the dispatch loop of `Program::exec`. -/
def step (itape : List Token) (s : State) : Option State :=
  match itape[s.ip]? with
  | none => none
  | some Token.INCP => some (incp s)
  | some Token.DECP => some (decp s)
  | some Token.INCC => incc s
  | some Token.DECC => decc s
  | some Token.PCHR => pchr s
  | some Token.GCHR => some (gchr s)
  | some Token.LBRK => lbrk itape s
  | some Token.RBRK => rbrk itape s

/-- `n` iterations of the dispatch loop. -/
def iter (itape : List Token) : Nat → State → Option State
  | 0, s => some s
  | n + 1, s =>
    match iter itape n s with
    | none => none
    | some s1 => step itape s1

/-- A state reached by the dispatch loop of `Program::exec` after some
number of instructions, starting from the state built by `from_source`. -/
def Reachable (itape : List Token) (input : List Nat) (s : State) : Prop :=
  ∃ n, iter itape n (initState input) = some s

/-- `Program::exec` run to the halt condition `ip == len`, with fuel. -/
def run (itape : List Token) : Nat → State → Option State
  | 0, _ => none
  | fuel + 1, s =>
    if s.ip = itape.length then some s
    else
      match step itape s with
      | none => none
      | some s1 => run itape fuel s1

/-- `main`: validate global bracket balance, and only on success tokenize
and execute.  `none` is the structural-error rejection (nothing is
executed, no output exists); `some r` is the execution outcome. -/
def host (source : List Char) (input : List Nat) (fuel : Nat) :
    Option (Option State) :=
  if bracketCheck source 0 then some (run (tokenize source) fuel (initState input))
  else none

/-- Execution invariant: the instruction pointer stays in `0..=len`, the
current data-pointer address always has a tape entry, `ip = 0` only at the
initial state, and `ip` never enters the body (nor reaches the closer) of a
loop opened at position 0. -/
def Inv (itape : List Token) (input : List Nat) (s : State) : Prop :=
  s.ip ≤ itape.length ∧ (s.dtape s.dp).isSome = true ∧
    (s.ip = 0 → s = initState input) ∧
    ∀ c, IsMatch itape 0 c → ¬(1 ≤ s.ip ∧ s.ip ≤ c)

/-- Demonstration program `[]` for concrete witnesses. -/
def demoLoop : List Token := [Token.LBRK, Token.RBRK]

/-- Demonstration program `++[-]` for concrete witnesses. -/
def demoProg : List Token :=
  [Token.INCC, Token.INCC, Token.LBRK, Token.DECC, Token.RBRK]

/-- The state of `demoProg` after four instructions: both increments, the
fall-through of the `LBRK`, and one decrement; `ip` rests on the `RBRK`
with current cell 1. -/
def demoState : State :=
  { dp := 0, ip := 4,
    dtape :=
      tapeInsert (tapeInsert (tapeInsert (tapeInsert emptyTape 0 0) 0 1) 0 2) 0 1,
    input := [], output := [] }

theorem lt_of_getElem? {ts : List Token} {n : Nat} {t : Token}
    (h : ts[n]? = some t) : n < ts.length :=
  (List.getElem?_eq_some.mp h).1

theorem bal_cons (t : Token) (ts : List Token) :
    bal (t :: ts) = tokDelta t + bal ts := by
  simp [bal]

theorem bal_append (a b : List Token) : bal (a ++ b) = bal a + bal b := by
  simp [bal]

theorem bal_take_drop (ts : List Token) (k : Nat) :
    bal (ts.take k) + bal (ts.drop k) = bal ts := by
  rw [← bal_append, List.take_append_drop]

theorem bal_take_succ (ts : List Token) (k : Nat) (t : Token) (h : ts[k]? = some t) :
    bal (ts.take (k + 1)) = bal (ts.take k) + tokDelta t := by
  rw [List.take_succ, h, bal_append]
  simp [bal]

theorem seg_self (ts : List Token) (a : Nat) : seg ts a a = [] := by
  simp [seg]

theorem seg_split (ts : List Token) (a b c : Nat) (h1 : a ≤ b) (h2 : b ≤ c) :
    seg ts a c = seg ts a b ++ seg ts b c := by
  unfold seg
  rw [show c - a = (b - a) + (c - b) by omega, List.take_add, List.drop_drop,
    show a + (b - a) = b by omega]

theorem seg_cons (ts : List Token) (a b : Nat) (t : Token)
    (h : ts[a]? = some t) (hab : a < b) :
    seg ts a b = t :: seg ts (a + 1) b := by
  obtain ⟨hlen, heq⟩ := List.getElem?_eq_some.mp h
  unfold seg
  rw [List.drop_eq_getElem_cons hlen, heq,
    show b - a = (b - (a + 1)) + 1 by omega, List.take_succ_cons]

theorem seg_snoc (ts : List Token) (a b : Nat) (t : Token)
    (h : ts[b]? = some t) (hab : a ≤ b) :
    seg ts a (b + 1) = seg ts a b ++ [t] := by
  rw [seg_split ts a b (b + 1) hab (by omega)]
  rw [seg_cons ts b (b + 1) t h (by omega), seg_self]

theorem seg_len (ts : List Token) (a b : Nat) (hb : b ≤ ts.length) :
    (seg ts a b).length = b - a := by
  unfold seg
  rw [List.length_take, List.length_drop]
  omega

theorem seg_take (ts : List Token) (a b l : Nat) (h : a + l ≤ b) :
    (seg ts a b).take l = seg ts a (a + l) := by
  unfold seg
  rw [List.take_take, show min l (b - a) = l by omega, show a + l - a = l by omega]

theorem seg_zero (ts : List Token) (k : Nat) : seg ts 0 k = ts.take k := by
  simp [seg]

theorem nonneg_take (ts : List Token) (h : NonNegL ts) (k : Nat) :
    0 ≤ bal (ts.take k) := by
  by_cases hk : k ≤ ts.length
  · exact h k hk
  · rw [List.take_of_length_le (by omega)]
    have h2 := h ts.length (le_refl _)
    rwa [List.take_length] at h2

theorem bal_drop_of_zero (ts : List Token) (hb : bal ts = 0) (k : Nat) :
    bal (ts.drop k) = -bal (ts.take k) := by
  have h := bal_take_drop ts k
  omega

theorem bal_single (t : Token) : bal [t] = tokDelta t := by
  simp [bal]

theorem tokDelta_lb : tokDelta Token.LBRK = 1 := rfl

theorem tokDelta_rb : tokDelta Token.RBRK = -1 := rfl

theorem isMatch_right_aux (ts : List Token) (i j j' : Nat)
    (h1 : IsMatch ts i j) (h2 : IsMatch ts i j') (hlt : j < j') : False := by
  obtain ⟨hL, hRj, hij, hBj⟩ := h1
  obtain ⟨_, hRj', hij', hBj'⟩ := h2
  have hlen := lt_of_getElem? hRj'
  have hb1 : bal (seg ts (i + 1) (j + 1)) = -1 := by
    rw [seg_snoc ts (i + 1) j Token.RBRK hRj (by omega), bal_append, hBj.1,
      bal_single, tokDelta_rb]
    omega
  have htake : (seg ts (i + 1) j').take (j - i) = seg ts (i + 1) (j + 1) := by
    rw [seg_take ts (i + 1) j' (j - i) (by omega)]
    congr 1
    omega
  have hnn := hBj'.2 (j - i) (by rw [seg_len ts _ _ (by omega)]; omega)
  rw [htake, hb1] at hnn
  omega

theorem isMatch_uniq_right (ts : List Token) (i j j' : Nat)
    (h1 : IsMatch ts i j) (h2 : IsMatch ts i j') : j = j' := by
  rcases Nat.lt_trichotomy j j' with h | h | h
  · exact absurd h (fun hlt => (isMatch_right_aux ts i j j' h1 h2 hlt).elim)
  · exact h
  · exact absurd h (fun hlt => (isMatch_right_aux ts i j' j h2 h1 hlt).elim)

theorem isMatch_left_aux (ts : List Token) (m m' q : Nat)
    (h1 : IsMatch ts m q) (h2 : IsMatch ts m' q) (hlt : m < m') : False := by
  obtain ⟨hLm, hRq, hmq, hBm⟩ := h1
  obtain ⟨hLm', _, hm'q, hBm'⟩ := h2
  have hlenq := lt_of_getElem? hRq
  have hb : bal (seg ts (m + 1) q) = 0 := hBm.1
  rw [seg_split ts (m + 1) (m' + 1) q (by omega) (by omega), bal_append,
    hBm'.1, seg_snoc ts (m + 1) m' Token.LBRK hLm' (by omega), bal_append,
    bal_single, tokDelta_lb] at hb
  have hbal : bal (seg ts (m + 1) m') = -1 := by omega
  have htake : (seg ts (m + 1) q).take (m' - (m + 1)) = seg ts (m + 1) m' := by
    rw [seg_take ts (m + 1) q _ (by omega)]
    congr 1
    omega
  have hnn := hBm.2 (m' - (m + 1)) (by rw [seg_len ts _ _ (by omega)]; omega)
  rw [htake, hbal] at hnn
  omega

theorem isMatch_uniq_left (ts : List Token) (m m' q : Nat)
    (h1 : IsMatch ts m q) (h2 : IsMatch ts m' q) : m = m' := by
  rcases Nat.lt_trichotomy m m' with h | h | h
  · exact absurd h (fun hlt => (isMatch_left_aux ts m m' q h1 h2 hlt).elim)
  · exact h
  · exact absurd h (fun hlt => (isMatch_left_aux ts m' m q h2 h1 hlt).elim)

theorem isMatch_cross (ts : List Token) (i j m q : Nat)
    (h1 : IsMatch ts i j) (h2 : IsMatch ts m q)
    (him : i < m) (hmj : m < j) (hjq : j < q) : False := by
  obtain ⟨hLi, hRj, hij, hBij⟩ := h1
  obtain ⟨hLm, hRq, hmq, hBmq⟩ := h2
  have hlenj := lt_of_getElem? hRj
  have hlenq := lt_of_getElem? hRq
  have hb0 : bal (seg ts (i + 1) j) = 0 := hBij.1
  rw [seg_split ts (i + 1) (m + 1) j (by omega) (by omega), bal_append,
    seg_snoc ts (i + 1) m Token.LBRK hLm (by omega), bal_append,
    bal_single, tokDelta_lb] at hb0
  have hpre : 0 ≤ bal (seg ts (i + 1) m) := by
    have htk : (seg ts (i + 1) j).take (m - (i + 1)) = seg ts (i + 1) m := by
      rw [seg_take ts (i + 1) j _ (by omega)]
      congr 1
      omega
    have hnn := hBij.2 (m - (i + 1)) (by rw [seg_len ts _ _ (by omega)]; omega)
    rwa [htk] at hnn
  have hbj1 : bal (seg ts (m + 1) (j + 1)) ≤ -2 := by
    rw [seg_snoc ts (m + 1) j Token.RBRK hRj (by omega), bal_append,
      bal_single, tokDelta_rb]
    omega
  have htk2 : (seg ts (m + 1) q).take (j - m) = seg ts (m + 1) (j + 1) := by
    rw [seg_take ts (m + 1) q _ (by omega)]
    congr 1
    omega
  have hnn2 := hBmq.2 (j - m) (by rw [seg_len ts _ _ (by omega)]; omega)
  rw [htk2] at hnn2
  omega

theorem tokDelta_cases (t : Token) :
    tokDelta t = -1 ∨ tokDelta t = 0 ∨ tokDelta t = 1 := by
  cases t <;> simp [tokDelta]

theorem eq_lb_of_delta (t : Token) (h : tokDelta t = 1) : t = Token.LBRK := by
  cases t <;> first | rfl | simp [tokDelta] at h

theorem eq_rb_of_delta (t : Token) (h : tokDelta t = -1) : t = Token.RBRK := by
  cases t <;> first | rfl | simp [tokDelta] at h

theorem cntF_spec (t : Token) (c : Nat) (hc : 1 ≤ c) :
    (cntF t c : Int) = (c : Int) + tokDelta t := by
  cases t <;> simp only [cntF, tokDelta] <;> omega

theorem cntB_spec (t : Token) (c : Nat) (hc : 1 ≤ c) :
    (cntB t c : Int) = (c : Int) - tokDelta t := by
  cases t <;> simp only [cntB, tokDelta] <;> omega

theorem scanK_sound : ∀ (ts : List Token) (c k : Nat), 1 ≤ c →
    scanK ts c = some k →
    1 ≤ k ∧ k ≤ ts.length ∧ ts[k - 1]? = some Token.RBRK ∧
      bal (ts.take k) = -(c : Int) ∧
      ∀ j, j < k → -(c : Int) < bal (ts.take j) := by
  intro ts
  induction ts with
  | nil =>
    intro c k hc hs
    simp [scanK] at hs
  | cons t rest ih =>
    intro c k hc hs
    rw [scanK] at hs
    have hcf := cntF_spec t c hc
    have hdb := tokDelta_cases t
    by_cases hz : cntF t c = 0
    · rw [if_pos hz] at hs
      injection hs with hk
      subst hk
      rw [hz] at hcf
      have hd1 : tokDelta t = -1 ∧ (c : Int) = 1 := by
        simp at hcf
        omega
      have ht := eq_rb_of_delta t hd1.1
      subst ht
      refine ⟨le_refl 1, by simp, by simp, ?_, ?_⟩
      · rw [List.take_succ_cons, List.take_zero, bal_single, tokDelta_rb]
        omega
      · intro j hj
        interval_cases j
        simp [bal]
        omega
    · rw [if_neg hz] at hs
      cases hrec : scanK rest (cntF t c) with
      | none => rw [hrec] at hs; cases hs
      | some k0 =>
        rw [hrec] at hs
        injection hs with hk
        subst hk
        have hc' : 1 ≤ cntF t c := Nat.one_le_iff_ne_zero.mpr hz
        obtain ⟨hk1, hklen, hkel, hkbal, hkpre⟩ := ih (cntF t c) k0 hc' hrec
        refine ⟨by omega, by simp; omega, ?_, ?_, ?_⟩
        · rw [show k0 + 1 - 1 = k0 by omega]
          cases k0 with
          | zero => omega
          | succ k1 =>
            rw [List.getElem?_cons_succ]
            rw [show k1 + 1 - 1 = k1 by omega] at hkel
            exact hkel
        · rw [List.take_succ_cons, bal_cons, hkbal]
          omega
        · intro j hj
          cases j with
          | zero =>
            simp [bal]
            omega
          | succ j0 =>
            rw [List.take_succ_cons, bal_cons]
            have hp := hkpre j0 (by omega)
            omega

theorem scanK_success : ∀ (ts : List Token) (c : Nat), 1 ≤ c →
    bal ts + (c : Int) ≤ 0 → ∃ k, scanK ts c = some k := by
  intro ts
  induction ts with
  | nil =>
    intro c hc hb
    exfalso
    simp [bal] at hb
    omega
  | cons t rest ih =>
    intro c hc hb
    have heq : scanK (t :: rest) c =
        if cntF t c = 0 then some 1
        else
          match scanK rest (cntF t c) with
          | none => none
          | some k => some (k + 1) := rfl
    have hcf := cntF_spec t c hc
    by_cases hz : cntF t c = 0
    · exact ⟨1, by rw [heq, if_pos hz]⟩
    · have hc' : 1 ≤ cntF t c := Nat.one_le_iff_ne_zero.mpr hz
      have hb' : bal rest + (cntF t c : Int) ≤ 0 := by
        rw [bal_cons] at hb
        omega
      obtain ⟨k0, hk0⟩ := ih (cntF t c) hc' hb'
      exact ⟨k0 + 1, by rw [heq, if_neg hz, hk0]⟩

theorem scanBack_sound (ts : List Token) : ∀ (pos c m : Nat), 1 ≤ c →
    scanBack ts pos c = some m →
    m ≤ pos ∧ ts[m]? = some Token.LBRK ∧
      bal (seg ts m (pos + 1)) = (c : Int) ∧
      ∀ j, m < j → j ≤ pos → bal (seg ts j (pos + 1)) < (c : Int) := by
  intro pos
  induction pos with
  | zero =>
    intro c m hc hs
    rw [scanBack] at hs
    cases hf : ts[0]? with
    | none => rw [hf] at hs; cases hs
    | some t =>
      rw [hf] at hs
      simp only at hs
      have hcb := cntB_spec t c hc
      have hdb := tokDelta_cases t
      by_cases hz : cntB t c = 0
      · rw [if_pos hz] at hs
        injection hs with hm
        subst hm
        rw [hz] at hcb
        have hd1 : tokDelta t = 1 ∧ (c : Int) = 1 := by
          simp at hcb
          omega
        have ht := eq_lb_of_delta t hd1.1
        subst ht
        refine ⟨le_refl 0, hf, ?_, ?_⟩
        · rw [seg_cons ts 0 1 Token.LBRK hf (by omega), seg_self, bal_single,
            tokDelta_lb]
          omega
        · intro j hj hj0
          omega
      · rw [if_neg hz] at hs
        cases hs
  | succ pos ih =>
    intro c m hc hs
    rw [scanBack] at hs
    cases hf : ts[pos + 1]? with
    | none => rw [hf] at hs; cases hs
    | some t =>
      rw [hf] at hs
      simp only at hs
      have hcb := cntB_spec t c hc
      have hdb := tokDelta_cases t
      by_cases hz : cntB t c = 0
      · rw [if_pos hz] at hs
        injection hs with hm
        subst hm
        rw [hz] at hcb
        have hd1 : tokDelta t = 1 ∧ (c : Int) = 1 := by
          simp at hcb
          omega
        have ht := eq_lb_of_delta t hd1.1
        subst ht
        refine ⟨le_refl _, hf, ?_, ?_⟩
        · rw [seg_cons ts (pos + 1) (pos + 2) Token.LBRK hf (by omega), seg_self,
            bal_single, tokDelta_lb]
          omega
        · intro j hj hjle
          omega
      · rw [if_neg hz] at hs
        have hc' : 1 ≤ cntB t c := Nat.one_le_iff_ne_zero.mpr hz
        obtain ⟨hm1, hmel, hmbal, hmpre⟩ := ih (cntB t c) m hc' hs
        refine ⟨by omega, hmel, ?_, ?_⟩
        · rw [seg_snoc ts m (pos + 1) t hf (by omega), bal_append, hmbal,
            bal_single]
          omega
        · intro j hj hjle
          by_cases hjp : j ≤ pos
          · rw [seg_snoc ts j (pos + 1) t hf (by omega), bal_append, bal_single]
            have hp := hmpre j hj hjp
            omega
          · rw [show j = pos + 1 by omega,
              seg_cons ts (pos + 1) (pos + 2) t hf (by omega), seg_self, bal_single]
            omega

theorem scanBack_success (ts : List Token) : ∀ (pos c : Nat), 1 ≤ c →
    pos < ts.length → (c : Int) ≤ bal (ts.take (pos + 1)) →
    ∃ m, scanBack ts pos c = some m := by
  intro pos
  induction pos with
  | zero =>
    intro c hc hlen hb
    have hf := List.getElem?_eq_getElem hlen
    have heq : scanBack ts 0 c =
        if cntB (ts[0]) c = 0 then some 0 else none := by
      rw [scanBack, hf]
    by_cases hz : cntB (ts[0]) c = 0
    · exact ⟨0, by rw [heq, if_pos hz]⟩
    · exfalso
      have hcb := cntB_spec (ts[0]) c hc
      have hdb := tokDelta_cases (ts[0])
      have hc' : 1 ≤ cntB (ts[0]) c := Nat.one_le_iff_ne_zero.mpr hz
      have hb1 : bal (ts.take 1) = tokDelta (ts[0]) := by
        have hstep := bal_take_succ ts 0 _ hf
        simpa [bal] using hstep
      simp only [Nat.zero_add] at hb
      omega
  | succ pos ih =>
    intro c hc hlen hb
    have hf := List.getElem?_eq_getElem hlen
    have heq : scanBack ts (pos + 1) c =
        if cntB (ts[pos + 1]) c = 0 then some (pos + 1)
        else scanBack ts pos (cntB (ts[pos + 1]) c) := by
      rw [scanBack, hf]
    by_cases hz : cntB (ts[pos + 1]) c = 0
    · exact ⟨pos + 1, by rw [heq, if_pos hz]⟩
    · have hc' : 1 ≤ cntB (ts[pos + 1]) c := Nat.one_le_iff_ne_zero.mpr hz
      have hcb := cntB_spec (ts[pos + 1]) c hc
      have hstep := bal_take_succ ts (pos + 1) _ hf
      obtain ⟨m, hm⟩ := ih (cntB (ts[pos + 1]) c) hc' (by omega) (by omega)
      exact ⟨m, by rw [heq, if_neg hz, hm]⟩

theorem scanK_isMatch (ts : List Token) (i k : Nat)
    (ht : ts[i]? = some Token.LBRK)
    (hs : scanK (ts.drop (i + 1)) 1 = some k) : IsMatch ts i (i + k) := by
  obtain ⟨hk1, hklen, hkel, hkbal, hkpre⟩ :=
    scanK_sound (ts.drop (i + 1)) 1 k (le_refl 1) hs
  rw [List.getElem?_drop, show i + 1 + (k - 1) = i + k by omega] at hkel
  have hseg : seg ts (i + 1) (i + k) = (ts.drop (i + 1)).take (k - 1) := by
    unfold seg
    congr 1
    omega
  refine ⟨ht, hkel, by omega, ?_, ?_⟩
  · rw [hseg]
    have hstep := bal_take_succ (ts.drop (i + 1)) (k - 1) Token.RBRK
      (by rw [List.getElem?_drop, show i + 1 + (k - 1) = i + k by omega]; exact hkel)
    rw [show k - 1 + 1 = k by omega, tokDelta_rb] at hstep
    omega
  · rw [hseg]
    intro l hl
    rw [List.length_take] at hl
    have hl2 : l < k := by omega
    have heq : ((ts.drop (i + 1)).take (k - 1)).take l = (ts.drop (i + 1)).take l := by
      rw [List.take_take]
      congr 1
      omega
    rw [heq]
    have hp := hkpre l hl2
    omega

theorem scanBack_isMatch (ts : List Token) (p m : Nat)
    (ht : ts[p]? = some Token.RBRK) (hp : 1 ≤ p)
    (hs : scanBack ts (p - 1) 1 = some m) : IsMatch ts m p := by
  obtain ⟨hm1, hmel, hmbal, hmpre⟩ := scanBack_sound ts (p - 1) 1 m (le_refl 1) hs
  rw [show p - 1 + 1 = p by omega] at hmbal hmpre
  have hmp : m < p := by omega
  have hplen := lt_of_getElem? ht
  have hb0 : bal (seg ts (m + 1) p) = 0 := by
    rw [seg_cons ts m p Token.LBRK hmel hmp, bal_cons, tokDelta_lb] at hmbal
    omega
  refine ⟨hmel, ht, hmp, hb0, ?_⟩
  intro l hl
  rw [seg_len ts (m + 1) p (by omega)] at hl
  rw [seg_take ts (m + 1) p l (by omega)]
  have hsp : bal (seg ts (m + 1) p) =
      bal (seg ts (m + 1) (m + 1 + l)) + bal (seg ts (m + 1 + l) p) := by
    rw [← bal_append, ← seg_split ts (m + 1) (m + 1 + l) p (by omega) (by omega)]
  by_cases hle : m + 1 + l = p
  · rw [hle]
    omega
  · have hj : bal (seg ts (m + 1 + l) p) < 1 := hmpre (m + 1 + l) (by omega) (by omega)
    omega

theorem lbrk_finds (ts : List Token) (i : Nat) (hB : BalancedL ts)
    (ht : ts[i]? = some Token.LBRK) :
    ∃ k, scanK (ts.drop (i + 1)) 1 = some k ∧ IsMatch ts i (i + k) := by
  have hlen := lt_of_getElem? ht
  have h1 : bal (ts.take (i + 1)) = bal (ts.take i) + 1 := by
    have hstep := bal_take_succ ts i _ ht
    rw [tokDelta_lb] at hstep
    exact hstep
  have h2 : 0 ≤ bal (ts.take i) := nonneg_take ts hB.2 i
  have h3 : bal (ts.drop (i + 1)) = -bal (ts.take (i + 1)) :=
    bal_drop_of_zero ts hB.1 (i + 1)
  obtain ⟨k, hk⟩ := scanK_success (ts.drop (i + 1)) 1 (le_refl 1) (by omega)
  exact ⟨k, hk, scanK_isMatch ts i k ht hk⟩

theorem rbrk_finds (ts : List Token) (p : Nat) (hB : BalancedL ts)
    (ht : ts[p]? = some Token.RBRK) :
    1 ≤ p ∧ ∃ m, scanBack ts (p - 1) 1 = some m ∧ IsMatch ts m p := by
  have hlen := lt_of_getElem? ht
  have h1 : bal (ts.take (p + 1)) = bal (ts.take p) - 1 := by
    have hstep := bal_take_succ ts p _ ht
    rw [tokDelta_rb] at hstep
    omega
  have h2 : 0 ≤ bal (ts.take (p + 1)) := hB.2 (p + 1) (by omega)
  have hp1 : 1 ≤ bal (ts.take p) := by omega
  have hp : 1 ≤ p := by
    by_contra h0
    rw [show p = 0 by omega, List.take_zero] at hp1
    simp [bal] at hp1
  obtain ⟨m, hm⟩ := scanBack_success ts (p - 1) 1 (le_refl 1) (by omega)
    (by rw [show p - 1 + 1 = p by omega]; omega)
  exact ⟨hp, m, hm, scanBack_isMatch ts p m ht hp hm⟩

theorem tapeInsert_self (m : Int → Option Nat) (k : Int) (v : Nat) :
    tapeInsert m k v k = some v := by
  simp [tapeInsert]

theorem tapeInsert_ne (m : Int → Option Nat) (k a : Int) (v : Nat) (h : a ≠ k) :
    tapeInsert m k v a = m a := by
  simp [tapeInsert, h]

theorem step_incp (itape : List Token) (s : State)
    (hf : itape[s.ip]? = some Token.INCP) : step itape s = some (incp s) := by
  simp only [step, hf]

theorem step_decp (itape : List Token) (s : State)
    (hf : itape[s.ip]? = some Token.DECP) : step itape s = some (decp s) := by
  simp only [step, hf]

theorem step_incc (itape : List Token) (s : State) (v : Nat)
    (hf : itape[s.ip]? = some Token.INCC) (hv : s.dtape s.dp = some v) :
    step itape s =
      some { s with dtape := tapeInsert s.dtape s.dp ((v + 1) % 256), ip := s.ip + 1 } := by
  simp only [step, hf, incc, hv]

theorem step_decc (itape : List Token) (s : State) (v : Nat)
    (hf : itape[s.ip]? = some Token.DECC) (hv : s.dtape s.dp = some v) :
    step itape s =
      some { s with dtape := tapeInsert s.dtape s.dp ((v + 255) % 256), ip := s.ip + 1 } := by
  simp only [step, hf, decc, hv]

theorem step_pchr (itape : List Token) (s : State) (v : Nat)
    (hf : itape[s.ip]? = some Token.PCHR) (hv : s.dtape s.dp = some v) :
    step itape s = some { s with output := s.output ++ [v], ip := s.ip + 1 } := by
  simp only [step, hf, pchr, hv]

theorem step_gchr (itape : List Token) (s : State)
    (hf : itape[s.ip]? = some Token.GCHR) : step itape s = some (gchr s) := by
  simp only [step, hf]

theorem step_lbrk_pos (itape : List Token) (s : State) (v : Nat)
    (hf : itape[s.ip]? = some Token.LBRK) (hv : s.dtape s.dp = some v)
    (hv0 : v ≠ 0) : step itape s = some { s with ip := s.ip + 1 } := by
  simp only [step, hf, lbrk, hv, if_pos hv0]

theorem step_lbrk_zero (itape : List Token) (s : State) (k : Nat)
    (hf : itape[s.ip]? = some Token.LBRK) (hv : s.dtape s.dp = some 0)
    (hk : scanK (itape.drop (s.ip + 1)) 1 = some k) :
    step itape s = some { s with ip := s.ip + 1 + k } := by
  simp only [step, hf, lbrk, hv, hk, if_neg (show ¬((0 : Nat) ≠ 0) by simp)]

theorem step_rbrk_zero (itape : List Token) (s : State)
    (hf : itape[s.ip]? = some Token.RBRK) (hv : s.dtape s.dp = some 0) :
    step itape s = some { s with ip := s.ip + 1 } := by
  simp only [step, hf, rbrk, hv, if_true]

theorem step_rbrk_pos (itape : List Token) (s : State) (v m : Nat)
    (hf : itape[s.ip]? = some Token.RBRK) (hv : s.dtape s.dp = some v)
    (hv0 : v ≠ 0) (hip : s.ip ≠ 0)
    (hm : scanBack itape (s.ip - 1) 1 = some m) (hm0 : m ≠ 0) :
    step itape s = some { s with ip := m + 1 } := by
  simp only [step, hf, rbrk, hv, if_neg hv0, if_neg hip, hm, if_neg hm0]

theorem gchr_ip (s : State) : (gchr s).ip = s.ip + 1 := by
  cases hi : s.input <;> simp [gchr, hi]

theorem gchr_dp (s : State) : (gchr s).dp = s.dp := by
  cases hi : s.input <;> simp [gchr, hi]

theorem gchr_isSome (s : State) : ((gchr s).dtape (gchr s).dp).isSome = true := by
  cases hi : s.input <;> simp [gchr, hi, tapeInsert_self]

theorem step_main (itape : List Token) (s s2 : State)
    (hsome : (s.dtape s.dp).isSome = true) (h : step itape s = some s2) :
    s.ip < itape.length ∧ 1 ≤ s2.ip ∧ (s2.dtape s2.dp).isSome = true ∧
      ((s2.ip = s.ip + 1 ∧
          ¬(itape[s.ip]? = some Token.LBRK ∧ s.dtape s.dp = some 0)) ∨
        (itape[s.ip]? = some Token.LBRK ∧ s.dtape s.dp = some 0 ∧
          ∃ k, scanK (itape.drop (s.ip + 1)) 1 = some k ∧
            s2.ip = s.ip + 1 + k ∧ s2.ip ≤ itape.length) ∨
        (itape[s.ip]? = some Token.RBRK ∧ 1 ≤ s.ip ∧
          ∃ m, scanBack itape (s.ip - 1) 1 = some m ∧ 1 ≤ m ∧ m < s.ip ∧
            s2.ip = m + 1)) := by
  cases hf : itape[s.ip]? with
  | none =>
    simp only [step, hf] at h
    exact Option.noConfusion h
  | some t =>
    have hlt : s.ip < itape.length := lt_of_getElem? hf
    cases t with
    | INCP =>
      rw [step_incp itape s hf] at h
      injection h with h2
      subst h2
      refine ⟨hlt, Nat.succ_le_succ (Nat.zero_le _), ?_, Or.inl ⟨rfl, ?_⟩⟩
      · show ((if (s.dtape (s.dp + 1)).isSome then s.dtape
            else tapeInsert s.dtape (s.dp + 1) 0) (s.dp + 1)).isSome = true
        by_cases hx : (s.dtape (s.dp + 1)).isSome = true
        · rw [if_pos hx]
          exact hx
        · rw [if_neg hx, tapeInsert_self]
          rfl
      · rintro ⟨hc, -⟩
        simp at hc
    | DECP =>
      rw [step_decp itape s hf] at h
      injection h with h2
      subst h2
      refine ⟨hlt, Nat.succ_le_succ (Nat.zero_le _), ?_, Or.inl ⟨rfl, ?_⟩⟩
      · show ((if (s.dtape (s.dp - 1)).isSome then s.dtape
            else tapeInsert s.dtape (s.dp - 1) 0) (s.dp - 1)).isSome = true
        by_cases hx : (s.dtape (s.dp - 1)).isSome = true
        · rw [if_pos hx]
          exact hx
        · rw [if_neg hx, tapeInsert_self]
          rfl
      · rintro ⟨hc, -⟩
        simp at hc
    | INCC =>
      cases hv : s.dtape s.dp with
      | none =>
        rw [hv] at hsome
        simp at hsome
      | some v =>
        rw [step_incc itape s v hf hv] at h
        injection h with h2
        subst h2
        refine ⟨hlt, Nat.succ_le_succ (Nat.zero_le _), ?_, Or.inl ⟨rfl, ?_⟩⟩
        · show ((tapeInsert s.dtape s.dp ((v + 1) % 256)) s.dp).isSome = true
          rw [tapeInsert_self]
          rfl
        · rintro ⟨hc, -⟩
          simp at hc
    | DECC =>
      cases hv : s.dtape s.dp with
      | none =>
        rw [hv] at hsome
        simp at hsome
      | some v =>
        rw [step_decc itape s v hf hv] at h
        injection h with h2
        subst h2
        refine ⟨hlt, Nat.succ_le_succ (Nat.zero_le _), ?_, Or.inl ⟨rfl, ?_⟩⟩
        · show ((tapeInsert s.dtape s.dp ((v + 255) % 256)) s.dp).isSome = true
          rw [tapeInsert_self]
          rfl
        · rintro ⟨hc, -⟩
          simp at hc
    | PCHR =>
      cases hv : s.dtape s.dp with
      | none =>
        rw [hv] at hsome
        simp at hsome
      | some v =>
        rw [step_pchr itape s v hf hv] at h
        injection h with h2
        subst h2
        refine ⟨hlt, Nat.succ_le_succ (Nat.zero_le _), hsome, Or.inl ⟨rfl, ?_⟩⟩
        rintro ⟨hc, -⟩
        simp at hc
    | GCHR =>
      rw [step_gchr itape s hf] at h
      injection h with h2
      subst h2
      refine ⟨hlt, ?_, gchr_isSome s, Or.inl ⟨gchr_ip s, ?_⟩⟩
      · rw [gchr_ip]
        exact Nat.succ_le_succ (Nat.zero_le _)
      · rintro ⟨hc, -⟩
        simp at hc
    | LBRK =>
      cases hv : s.dtape s.dp with
      | none =>
        rw [hv] at hsome
        simp at hsome
      | some v =>
        by_cases hv0 : v = 0
        · subst hv0
          simp only [step, hf, lbrk, hv,
            if_neg (show ¬((0 : Nat) ≠ 0) by simp)] at h
          cases hk : scanK (itape.drop (s.ip + 1)) 1 with
          | none =>
            rw [hk] at h
            exact Option.noConfusion h
          | some k =>
            rw [hk] at h
            injection h with h2
            subst h2
            obtain ⟨hk1, hklen, _, _, _⟩ := scanK_sound _ 1 k (le_refl 1) hk
            rw [List.length_drop] at hklen
            refine ⟨hlt, ?_, hsome,
              Or.inr (Or.inl ⟨rfl, rfl, k, rfl, rfl, ?_⟩)⟩
            · show 1 ≤ s.ip + 1 + k
              omega
            · show s.ip + 1 + k ≤ itape.length
              omega
        · rw [step_lbrk_pos itape s v hf hv hv0] at h
          injection h with h2
          subst h2
          refine ⟨hlt, Nat.succ_le_succ (Nat.zero_le _), hsome, Or.inl ⟨rfl, ?_⟩⟩
          rintro ⟨-, hc⟩
          injection hc with hc2
          exact hv0 hc2
    | RBRK =>
      cases hv : s.dtape s.dp with
      | none =>
        rw [hv] at hsome
        simp at hsome
      | some v =>
        by_cases hv0 : v = 0
        · subst hv0
          rw [step_rbrk_zero itape s hf hv] at h
          injection h with h2
          subst h2
          refine ⟨hlt, Nat.succ_le_succ (Nat.zero_le _), hsome, Or.inl ⟨rfl, ?_⟩⟩
          rintro ⟨hc, -⟩
          simp at hc
        · by_cases hip : s.ip = 0
          · simp only [step, hf, rbrk, hv, if_neg hv0, if_pos hip] at h
            exact Option.noConfusion h
          · cases hm : scanBack itape (s.ip - 1) 1 with
            | none =>
              simp only [step, hf, rbrk, hv, if_neg hv0, if_neg hip, hm] at h
              exact Option.noConfusion h
            | some m =>
              simp only [step, hf, rbrk, hv, if_neg hv0, if_neg hip, hm] at h
              by_cases hm0 : m = 0
              · rw [if_pos hm0] at h
                exact Option.noConfusion h
              · rw [if_neg hm0] at h
                injection h with h2
                subst h2
                obtain ⟨hm1, _, _, _⟩ := scanBack_sound itape (s.ip - 1) 1 m (le_refl 1) hm
                exact ⟨hlt, Nat.succ_le_succ (Nat.zero_le _), hsome,
                  Or.inr (Or.inr ⟨rfl, by omega, m, rfl, by omega, by omega, rfl⟩)⟩

theorem inv_init (itape : List Token) (input : List Nat) :
    Inv itape input (initState input) := by
  refine ⟨Nat.zero_le _, ?_, fun _ => rfl, ?_⟩
  · show ((tapeInsert emptyTape 0 0) 0).isSome = true
    rw [tapeInsert_self]
    rfl
  · intro c hc hcon
    have h0 : (initState input).ip = 0 := rfl
    omega

theorem inv_step (itape : List Token) (input : List Nat) (s s2 : State)
    (hI : Inv itape input s)
    (h : step itape s = some s2) : Inv itape input s2 := by
  obtain ⟨hlen, hsome, hinit, hdead⟩ := hI
  obtain ⟨hlt, hip2, hsome2, hbr⟩ := step_main itape s s2 hsome h
  refine ⟨?_, hsome2, fun h0 => by omega, ?_⟩
  · rcases hbr with ⟨he, -⟩ | ⟨-, -, k, -, he, hb⟩ | ⟨-, -, m, -, -, hmlt, he⟩
    · omega
    · omega
    · omega
  · intro c hc hcon
    obtain ⟨hc1, hc2⟩ := hcon
    by_cases hip0 : s.ip = 0
    · have hs := hinit hip0
      rcases hbr with ⟨he, hne⟩ | ⟨-, -, k, hk, he, -⟩ | ⟨hrb, hip1, -⟩
      · apply hne
        constructor
        · rw [hip0]
          exact hc.1
        · rw [hs]
          show tapeInsert emptyTape 0 0 0 = some 0
          exact tapeInsert_self _ _ _
      · have hM : IsMatch itape s.ip (s.ip + k) :=
          scanK_isMatch itape s.ip k (by rw [hip0]; exact hc.1) hk
        rw [hip0] at hM
        have huniq : c = 0 + k := isMatch_uniq_right itape 0 c (0 + k) hc hM
        omega
      · omega
    · have hgt : c < s.ip := by
        by_contra hle
        exact hdead c hc ⟨by omega, by omega⟩
      rcases hbr with ⟨he, -⟩ | ⟨-, -, k, -, he, -⟩ | ⟨hrb, hip1, m, hm, hm1, hmlt, he⟩
      · omega
      · omega
      · have hM : IsMatch itape m s.ip := scanBack_isMatch itape s.ip m hrb hip1 hm
        by_cases hmc : m = c
        · obtain ⟨hL, -, -, -⟩ := hM
          obtain ⟨-, hR, -, -⟩ := hc
          rw [hmc] at hL
          rw [hL] at hR
          simp at hR
        · by_cases hmlt2 : m < c
          · exact isMatch_cross itape 0 c m s.ip hc hM (by omega) hmlt2 (by omega)
          · omega

theorem inv_reachable (itape : List Token) (input : List Nat) (s : State)
    (hr : Reachable itape input s) :
    Inv itape input s := by
  obtain ⟨n, hn⟩ := hr
  induction n generalizing s with
  | zero =>
    injection hn with h2
    rw [← h2]
    exact inv_init itape input
  | succ n ih =>
    rw [iter] at hn
    cases hit : iter itape n (initState input) with
    | none =>
      rw [hit] at hn
      exact Option.noConfusion hn
    | some s1 =>
      rw [hit] at hn
      exact inv_step itape input s1 s (ih s1 hit) hn

theorem rbrk_reach (itape : List Token) (input : List Nat) (s : State) (v : Nat)
    (hB : BalancedL itape) (hr : Reachable itape input s)
    (hf : itape[s.ip]? = some Token.RBRK) (hv : s.dtape s.dp = some v)
    (hv0 : v ≠ 0) :
    ∃ m, IsMatch itape m s.ip ∧ 1 ≤ m ∧ scanBack itape (s.ip - 1) 1 = some m ∧
      step itape s = some { s with ip := m + 1 } := by
  have hI := inv_reachable itape input s hr
  obtain ⟨hp, m, hm, hM⟩ := rbrk_finds itape s.ip hB hf
  have hm1 : 1 ≤ m := by
    by_contra h0
    have hm0 : m = 0 := by omega
    rw [hm0] at hM
    exact hI.2.2.2 s.ip hM ⟨hp, le_refl _⟩
  exact ⟨m, hM, hm1, hm,
    step_rbrk_pos itape s v m hf hv hv0 (by omega) hm (by omega)⟩

theorem charBal_cons (c : Char) (cs : List Char) :
    charBal (c :: cs) = charDelta c + charBal cs := rfl

theorem charDelta_open : charDelta '[' = 1 := rfl

theorem charDelta_close : charDelta ']' = -1 := rfl

theorem charBal_shift (ch : Char) (cs : List Char) (c : Int) :
    (∀ k, 0 ≤ c + charBal ((ch :: cs).take k)) ↔
      (0 ≤ c ∧ ∀ k, 0 ≤ c + charDelta ch + charBal (cs.take k)) := by
  constructor
  · intro h
    refine ⟨by simpa [charBal] using h 0, fun k => ?_⟩
    have h2 := h (k + 1)
    rw [List.take_succ_cons, charBal_cons] at h2
    omega
  · rintro ⟨h0, h⟩ k
    cases k with
    | zero => simpa [charBal] using h0
    | succ k =>
      rw [List.take_succ_cons, charBal_cons]
      have h2 := h k
      omega

theorem bracketCheck_iff : ∀ (cs : List Char) (c : Int), 0 ≤ c →
    (bracketCheck cs c = true ↔
      ((∀ k, 0 ≤ c + charBal (cs.take k)) ∧ c + charBal cs = 0)) := by
  intro cs
  induction cs with
  | nil =>
    intro c hc
    simp only [bracketCheck, charBal, decide_eq_true_eq, List.take_nil]
    constructor
    · intro h
      exact ⟨fun k => by omega, by omega⟩
    · rintro ⟨-, h⟩
      omega
  | cons ch cs ih =>
    intro c hc
    rw [bracketCheck, charBal_shift ch cs c, charBal_cons]
    by_cases h1 : ch = '['
    · rw [if_pos h1, ih (c + 1) (by omega), h1, charDelta_open]
      constructor
      · rintro ⟨hall, hsum⟩
        exact ⟨⟨hc, fun k => by have h2 := hall k; omega⟩, by omega⟩
      · rintro ⟨⟨h0, hall⟩, hsum⟩
        exact ⟨fun k => by have h2 := hall k; omega, by omega⟩
    · by_cases h2 : ch = ']'
      · rw [if_neg h1, if_pos h2, h2, charDelta_close]
        by_cases h3 : c - 1 < 0
        · rw [if_pos h3]
          constructor
          · intro h
            exact absurd h (by simp)
          · rintro ⟨⟨h0, hall⟩, -⟩
            exfalso
            have h4 := hall 0
            simp [charBal] at h4
            omega
        · rw [if_neg h3, ih (c - 1) (by omega)]
          constructor
          · rintro ⟨hall, hsum⟩
            exact ⟨⟨hc, fun k => by have h4 := hall k; omega⟩, by omega⟩
          · rintro ⟨⟨h0, hall⟩, hsum⟩
            exact ⟨fun k => by have h4 := hall k; omega, by omega⟩
      · rw [if_neg h1, if_neg h2, ih c hc]
        have hd : charDelta ch = 0 := by simp [charDelta, h1, h2]
        rw [hd]
        constructor
        · rintro ⟨hall, hsum⟩
          exact ⟨⟨hc, fun k => by have h4 := hall k; omega⟩, by omega⟩
        · rintro ⟨⟨h0, hall⟩, hsum⟩
          exact ⟨fun k => by have h4 := hall k; omega, by omega⟩

/-- Claim C1: on a bracket-balanced program, dispatching a `LoopOpen`
advances `ip` by 1 and falls through when the current cell is nonzero; when
the cell is zero it sets `ip` to exactly one past the depth-aware matching
`LoopClose`; nothing but `ip` changes. -/
theorem claim1_lbrk (itape : List Token) (s : State) (v : Nat)
    (hB : BalancedL itape) (hf : itape[s.ip]? = some Token.LBRK)
    (hv : s.dtape s.dp = some v) :
    (v ≠ 0 → step itape s = some { s with ip := s.ip + 1 }) ∧
    (v = 0 → ∃ j, IsMatch itape s.ip j ∧
      step itape s = some { s with ip := j + 1 }) := by
  constructor
  · intro hv0
    exact step_lbrk_pos itape s v hf hv hv0
  · intro hv0
    subst hv0
    obtain ⟨k, hk, hM⟩ := lbrk_finds itape s.ip hB hf
    refine ⟨s.ip + k, hM, ?_⟩
    have hstep := step_lbrk_zero itape s k hf hv hk
    rw [show s.ip + 1 + k = s.ip + k + 1 by omega] at hstep
    exact hstep

/-- Witness for claim C1 on the program `[]` at its initial state. -/
theorem claim1_lbrk_witness :
    ((0 : Nat) ≠ 0 → step demoLoop (initState []) =
      some { initState [] with ip := (initState []).ip + 1 }) ∧
    ((0 : Nat) = 0 → ∃ j, IsMatch demoLoop (initState []).ip j ∧
      step demoLoop (initState []) = some { initState [] with ip := j + 1 }) :=
  claim1_lbrk demoLoop (initState []) 0 (by decide) rfl rfl

/-- Claim C2: on a bracket-balanced program, in any state reached by the
execution loop whose current instruction is `LoopClose`, a zero cell falls
through (`ip + 1`) and a nonzero cell jumps to exactly one past the
depth-aware matching `LoopOpen`; nothing but `ip` changes. -/
theorem claim2_rbrk (itape : List Token) (input : List Nat) (s : State) (v : Nat)
    (hB : BalancedL itape) (hr : Reachable itape input s)
    (hf : itape[s.ip]? = some Token.RBRK) (hv : s.dtape s.dp = some v) :
    (v = 0 → step itape s = some { s with ip := s.ip + 1 }) ∧
    (v ≠ 0 → ∃ m, IsMatch itape m s.ip ∧
      step itape s = some { s with ip := m + 1 }) := by
  constructor
  · intro hv0
    subst hv0
    exact step_rbrk_zero itape s hf hv
  · intro hv0
    obtain ⟨m, hM, hm1, hm, hstep⟩ := rbrk_reach itape input s v hB hr hf hv hv0
    exact ⟨m, hM, hstep⟩

/-- Witness for claim C2 on the program `++[-]` at the reachable state
resting on the `]` with current cell 1. -/
theorem claim2_rbrk_witness :
    ((1 : Nat) = 0 → step demoProg demoState =
      some { demoState with ip := demoState.ip + 1 }) ∧
    ((1 : Nat) ≠ 0 → ∃ m, IsMatch demoProg m demoState.ip ∧
      step demoProg demoState = some { demoState with ip := m + 1 }) :=
  claim2_rbrk demoProg [] demoState 1 (by decide) ⟨4, rfl⟩ rfl rfl

/-- Claim C3: on a bracket-balanced program, in any reachable state, the
forward scan of the `LoopOpen` handler and the backward scan of the
`LoopClose` handler both terminate successfully (counter reaches 0, match
found at an in-bounds index; the backward match is at index at least 1). -/
theorem claim3_scans (itape : List Token) (input : List Nat) (s : State)
    (hB : BalancedL itape) (hr : Reachable itape input s) :
    (itape[s.ip]? = some Token.LBRK → s.dtape s.dp = some 0 →
      ∃ k, scanK (itape.drop (s.ip + 1)) 1 = some k ∧
        itape[s.ip + k]? = some Token.RBRK ∧ s.ip + 1 + k ≤ itape.length) ∧
    (∀ v, itape[s.ip]? = some Token.RBRK → s.dtape s.dp = some v → v ≠ 0 →
      ∃ m, scanBack itape (s.ip - 1) 1 = some m ∧
        itape[m]? = some Token.LBRK ∧ 1 ≤ m) := by
  constructor
  · intro hf hv
    obtain ⟨k, hk, hM⟩ := lbrk_finds itape s.ip hB hf
    refine ⟨k, hk, hM.2.1, ?_⟩
    have hlt := lt_of_getElem? hM.2.1
    omega
  · intro v hf hv hv0
    obtain ⟨m, hM, hm1, hm, -⟩ := rbrk_reach itape input s v hB hr hf hv hv0
    exact ⟨m, hm, hM.1, hm1⟩

/-- Witness for claim C3 on the program `++[-]` at the reachable state
resting on the `]` with current cell 1. -/
theorem claim3_scans_witness :
    (demoProg[demoState.ip]? = some Token.LBRK →
      demoState.dtape demoState.dp = some 0 →
      ∃ k, scanK (demoProg.drop (demoState.ip + 1)) 1 = some k ∧
        demoProg[demoState.ip + k]? = some Token.RBRK ∧
        demoState.ip + 1 + k ≤ demoProg.length) ∧
    (∀ v, demoProg[demoState.ip]? = some Token.RBRK →
      demoState.dtape demoState.dp = some v → v ≠ 0 →
      ∃ m, scanBack demoProg (demoState.ip - 1) 1 = some m ∧
        demoProg[m]? = some Token.LBRK ∧ 1 ≤ m) :=
  claim3_scans demoProg [] demoState (by decide) ⟨4, rfl⟩

/-- Claim C4: on a bracket-balanced program, at every instruction boundary
of the run the instruction pointer is at most the program length, the tape
holds an explicit entry at the current data pointer, and address 0 is
pre-seeded with 0 at construction. -/
theorem claim4_bounds (itape : List Token) (input : List Nat) (s : State)
    (_hB : BalancedL itape) (hr : Reachable itape input s) :
    s.ip ≤ itape.length ∧ (s.dtape s.dp).isSome = true ∧
      (initState input).dtape 0 = some 0 := by
  have hI := inv_reachable itape input s hr
  exact ⟨hI.1, hI.2.1, tapeInsert_self emptyTape 0 0⟩

/-- Witness for claim C4 on the program `++[-]` at its initial state. -/
theorem claim4_bounds_witness :
    (initState []).ip ≤ demoProg.length ∧
      ((initState []).dtape (initState []).dp).isSome = true ∧
      (initState []).dtape 0 = some 0 :=
  claim4_bounds demoProg [] (initState []) (by decide) ⟨0, rfl⟩

/-- Claim C5: the tokenizer maps exactly the eight recognized characters to
their instructions in encounter order, silently dropping every other
character: it equals `filterMap` of the character table, and its length is
the count of instruction characters in the source.  Every string produces a
(possibly empty) program. -/
theorem claim5_tokenize (cs : List Char) :
    tokenize cs = List.filterMap charToToken cs ∧
    (tokenize cs).length =
      (cs.filter (fun c => decide (c ∈ instrChars))).length := by
  have hmap : tokenize cs = List.filterMap charToToken cs := by
    induction cs with
    | nil => rfl
    | cons c cs ih =>
      rw [tokenize]
      split_ifs with h1 h2 h3 h4 h5 h6 h7 h8
      · rw [ih, List.filterMap_cons_some
          (show charToToken c = some Token.INCP by simp [charToToken, h1])]
      · rw [ih, List.filterMap_cons_some
          (show charToToken c = some Token.DECP by simp [charToToken, h2])]
      · rw [ih, List.filterMap_cons_some
          (show charToToken c = some Token.INCC by simp [charToToken, h3])]
      · rw [ih, List.filterMap_cons_some
          (show charToToken c = some Token.DECC by simp [charToToken, h4])]
      · rw [ih, List.filterMap_cons_some
          (show charToToken c = some Token.PCHR by simp [charToToken, h5])]
      · rw [ih, List.filterMap_cons_some
          (show charToToken c = some Token.GCHR by simp [charToToken, h6])]
      · rw [ih, List.filterMap_cons_some
          (show charToToken c = some Token.LBRK by simp [charToToken, h7])]
      · rw [ih, List.filterMap_cons_some
          (show charToToken c = some Token.RBRK by simp [charToToken, h8])]
      · rw [ih, List.filterMap_cons_none
          (show charToToken c = none by
            simp [charToToken, h1, h2, h3, h4, h5, h6, h7, h8])]
  have hsome : ∀ c, (charToToken c).isSome = decide (c ∈ instrChars) := by
    intro c
    unfold charToToken instrChars
    split_ifs <;> simp_all
  refine ⟨hmap, ?_⟩
  rw [hmap, List.length_filterMap_eq_countP, ← List.countP_eq_length_filter]
  congr 1
  funext c
  exact hsome c

/-- Claim C6: `IncCell` stores `(v + 1) % 256` and `DecCell` stores
`(v + 255) % 256` (that is, `(v - 1) mod 256` in integers) at the current
cell, each advancing `ip` by 1; 255 increments to 0 and 0 decrements to
255 (wraparound, never an error). -/
theorem claim6_cellArith (itape : List Token) (s : State) (v : Nat)
    (hv : s.dtape s.dp = some v) :
    (itape[s.ip]? = some Token.INCC →
      step itape s = some { s with
        dtape := tapeInsert s.dtape s.dp ((v + 1) % 256), ip := s.ip + 1 }) ∧
    (itape[s.ip]? = some Token.DECC →
      step itape s = some { s with
        dtape := tapeInsert s.dtape s.dp ((v + 255) % 256), ip := s.ip + 1 }) ∧
    (v < 256 →
      (((v + 1) % 256 : Nat) : Int) = ((v : Int) + 1) % 256 ∧
      (((v + 255) % 256 : Nat) : Int) = ((v : Int) - 1) % 256) ∧
    ((255 + 1) % 256 = 0 ∧ ((0 : Nat) + 255) % 256 = 255) := by
  refine ⟨fun hf => step_incc itape s v hf hv,
    fun hf => step_decc itape s v hf hv,
    fun _hlt => ⟨by omega, by omega⟩, by norm_num, by norm_num⟩

/-- Witness for claim C6 on the program `+` at its initial state. -/
theorem claim6_cellArith_witness :
    ([Token.INCC][(initState []).ip]? = some Token.INCC →
      step [Token.INCC] (initState []) = some { initState [] with
        dtape := tapeInsert (initState []).dtape (initState []).dp ((0 + 1) % 256),
        ip := (initState []).ip + 1 }) ∧
    ([Token.INCC][(initState []).ip]? = some Token.DECC →
      step [Token.INCC] (initState []) = some { initState [] with
        dtape := tapeInsert (initState []).dtape (initState []).dp ((0 + 255) % 256),
        ip := (initState []).ip + 1 }) ∧
    ((0 : Nat) < 256 →
      (((0 + 1) % 256 : Nat) : Int) = (((0 : Nat) : Int) + 1) % 256 ∧
      (((0 + 255) % 256 : Nat) : Int) = (((0 : Nat) : Int) - 1) % 256) ∧
    ((255 + 1) % 256 = 0 ∧ ((0 : Nat) + 255) % 256 = 255) :=
  claim6_cellArith [Token.INCC] (initState []) 0 rfl

/-- Claim C7: the host rejects a source (no execution, no output) exactly
when the running signed bracket counter goes negative on some initial piece
of the source or is nonzero at the end; otherwise it tokenizes and runs the
program.  In particular the source `]` is rejected. -/
theorem claim7_structural :
    (∀ (source : List Char) (input : List Nat) (fuel : Nat),
      host source input fuel = none ↔
        ((∃ k, charBal (source.take k) < 0) ∨ charBal source ≠ 0)) ∧
    host [']'] [] 3 = none := by
  constructor
  · intro source input fuel
    unfold host
    by_cases hb : bracketCheck source 0 = true
    · rw [if_pos hb]
      obtain ⟨hall, hsum⟩ := (bracketCheck_iff source 0 (le_refl 0)).mp hb
      constructor
      · intro h
        exact absurd h (by simp)
      · rintro (⟨k, hk⟩ | hne)
        · have h2 := hall k
          omega
        · omega
    · rw [if_neg hb]
      constructor
      · intro h3
        by_cases hex : ∃ k, charBal (source.take k) < 0
        · exact Or.inl hex
        · push_neg at hex
          right
          intro h0
          apply hb
          rw [bracketCheck_iff source 0 (le_refl 0)]
          exact ⟨fun k => by have h4 := hex k; omega, by omega⟩
      · intro h3
        rfl
  · rfl

/-- Claim C8: `InputCell` stores the next input byte at the current cell,
consumes it, and advances `ip` by 1; on an exhausted input it stores 0
instead and execution continues normally (no error). -/
theorem claim8_gchr (itape : List Token) (s : State)
    (hf : itape[s.ip]? = some Token.GCHR) :
    (∀ b rest, s.input = b :: rest →
      step itape s = some { s with
        dtape := tapeInsert s.dtape s.dp b,
        input := rest,
        ip := s.ip + 1 }) ∧
    (s.input = [] →
      step itape s = some { s with
        dtape := tapeInsert s.dtape s.dp 0,
        ip := s.ip + 1 }) := by
  constructor
  · intro b rest hi
    rw [step_gchr itape s hf]
    simp [gchr, hi]
  · intro hi
    rw [step_gchr itape s hf]
    simp [gchr, hi]

/-- Witness for claim C8 on the program `,` with input byte 5. -/
theorem claim8_gchr_witness :
    (∀ b rest, (initState [5]).input = b :: rest →
      step [Token.GCHR] (initState [5]) = some { initState [5] with
        dtape := tapeInsert (initState [5]).dtape (initState [5]).dp b,
        input := rest,
        ip := (initState [5]).ip + 1 }) ∧
    ((initState [5]).input = [] →
      step [Token.GCHR] (initState [5]) = some { initState [5] with
        dtape := tapeInsert (initState [5]).dtape (initState [5]).dp 0,
        ip := (initState [5]).ip + 1 }) :=
  claim8_gchr [Token.GCHR] (initState [5]) rfl

/-- Claim C9: `MoveRight` and `MoveLeft` change only the data pointer
(`+1` / `-1`), the instruction pointer (`+1`), and zero-fill the new
address when it has no entry, so a first visit reads 0; existing entries
and all other addresses are untouched, as are input and output. -/
theorem claim9_move (itape : List Token) (s : State) :
    (itape[s.ip]? = some Token.INCP →
      step itape s = some (incp s) ∧ (incp s).dp = s.dp + 1 ∧
      (incp s).ip = s.ip + 1 ∧
      (incp s).dtape (s.dp + 1) = some ((s.dtape (s.dp + 1)).getD 0) ∧
      (s.dtape (s.dp + 1) = none → (incp s).dtape (s.dp + 1) = some 0) ∧
      (∀ a, a ≠ s.dp + 1 → (incp s).dtape a = s.dtape a) ∧
      (incp s).input = s.input ∧ (incp s).output = s.output) ∧
    (itape[s.ip]? = some Token.DECP →
      step itape s = some (decp s) ∧ (decp s).dp = s.dp - 1 ∧
      (decp s).ip = s.ip + 1 ∧
      (decp s).dtape (s.dp - 1) = some ((s.dtape (s.dp - 1)).getD 0) ∧
      (s.dtape (s.dp - 1) = none → (decp s).dtape (s.dp - 1) = some 0) ∧
      (∀ a, a ≠ s.dp - 1 → (decp s).dtape a = s.dtape a) ∧
      (decp s).input = s.input ∧ (decp s).output = s.output) := by
  constructor
  · intro hf
    refine ⟨step_incp itape s hf, rfl, rfl, ?_, ?_, ?_, rfl, rfl⟩
    · show (if (s.dtape (s.dp + 1)).isSome then s.dtape
          else tapeInsert s.dtape (s.dp + 1) 0) (s.dp + 1) =
        some ((s.dtape (s.dp + 1)).getD 0)
      cases hx : s.dtape (s.dp + 1) with
      | none => simp [hx, tapeInsert_self]
      | some w => simp [hx]
    · intro hnone
      show (if (s.dtape (s.dp + 1)).isSome then s.dtape
          else tapeInsert s.dtape (s.dp + 1) 0) (s.dp + 1) = some 0
      simp [hnone, tapeInsert_self]
    · intro a ha
      show (if (s.dtape (s.dp + 1)).isSome then s.dtape
          else tapeInsert s.dtape (s.dp + 1) 0) a = s.dtape a
      by_cases hx : (s.dtape (s.dp + 1)).isSome = true
      · rw [if_pos hx]
      · rw [if_neg hx, tapeInsert_ne _ _ _ _ ha]
  · intro hf
    refine ⟨step_decp itape s hf, rfl, rfl, ?_, ?_, ?_, rfl, rfl⟩
    · show (if (s.dtape (s.dp - 1)).isSome then s.dtape
          else tapeInsert s.dtape (s.dp - 1) 0) (s.dp - 1) =
        some ((s.dtape (s.dp - 1)).getD 0)
      cases hx : s.dtape (s.dp - 1) with
      | none => simp [hx, tapeInsert_self]
      | some w => simp [hx]
    · intro hnone
      show (if (s.dtape (s.dp - 1)).isSome then s.dtape
          else tapeInsert s.dtape (s.dp - 1) 0) (s.dp - 1) = some 0
      simp [hnone, tapeInsert_self]
    · intro a ha
      show (if (s.dtape (s.dp - 1)).isSome then s.dtape
          else tapeInsert s.dtape (s.dp - 1) 0) a = s.dtape a
      by_cases hx : (s.dtape (s.dp - 1)).isSome = true
      · rw [if_pos hx]
      · rw [if_neg hx, tapeInsert_ne _ _ _ _ ha]

/-- Witness for claim C9 on the program `>` at its initial state. -/
theorem claim9_move_witness :
    ([Token.INCP][(initState []).ip]? = some Token.INCP →
      step [Token.INCP] (initState []) = some (incp (initState [])) ∧
      (incp (initState [])).dp = (initState []).dp + 1 ∧
      (incp (initState [])).ip = (initState []).ip + 1 ∧
      (incp (initState [])).dtape ((initState []).dp + 1) =
        some (((initState []).dtape ((initState []).dp + 1)).getD 0) ∧
      ((initState []).dtape ((initState []).dp + 1) = none →
        (incp (initState [])).dtape ((initState []).dp + 1) = some 0) ∧
      (∀ a, a ≠ (initState []).dp + 1 →
        (incp (initState [])).dtape a = (initState []).dtape a) ∧
      (incp (initState [])).input = (initState []).input ∧
      (incp (initState [])).output = (initState []).output) ∧
    ([Token.INCP][(initState []).ip]? = some Token.DECP →
      step [Token.INCP] (initState []) = some (decp (initState [])) ∧
      (decp (initState [])).dp = (initState []).dp - 1 ∧
      (decp (initState [])).ip = (initState []).ip + 1 ∧
      (decp (initState [])).dtape ((initState []).dp - 1) =
        some (((initState []).dtape ((initState []).dp - 1)).getD 0) ∧
      ((initState []).dtape ((initState []).dp - 1) = none →
        (decp (initState [])).dtape ((initState []).dp - 1) = some 0) ∧
      (∀ a, a ≠ (initState []).dp - 1 →
        (decp (initState [])).dtape a = (initState []).dtape a) ∧
      (decp (initState [])).input = (initState []).input ∧
      (decp (initState [])).output = (initState []).output) :=
  claim9_move [Token.INCP] (initState [])

/-- Claim C10: on a bracket-balanced program, whenever a reachable
`LoopClose` dispatch takes its backward-jump branch (nonzero cell), the
matching `LoopOpen` sits at index at least 1, so the `usize` instruction
pointer never underflows during or after the backward scan, and the step
succeeds. -/
theorem claim10_no_underflow (itape : List Token) (input : List Nat)
    (s : State) (v : Nat) (hB : BalancedL itape)
    (hr : Reachable itape input s) (hf : itape[s.ip]? = some Token.RBRK)
    (hv : s.dtape s.dp = some v) (hv0 : v ≠ 0) :
    ∃ m, IsMatch itape m s.ip ∧ 1 ≤ m ∧
      scanBack itape (s.ip - 1) 1 = some m ∧
      step itape s = some { s with ip := m + 1 } :=
  rbrk_reach itape input s v hB hr hf hv hv0

/-- Witness for claim C10 on the program `++[-]` at the reachable state
resting on the `]` with current cell 1. -/
theorem claim10_no_underflow_witness :
    ∃ m, IsMatch demoProg m demoState.ip ∧ 1 ≤ m ∧
      scanBack demoProg (demoState.ip - 1) 1 = some m ∧
      step demoProg demoState = some { demoState with ip := m + 1 } :=
  claim10_no_underflow demoProg [] demoState 1 (by decide) ⟨4, rfl⟩ rfl rfl
    (by decide)

end Nkdbfi
